import Mathlib

/-!
# Verification of the muxie path-pattern trie

Shallow embedding of the muxie HTTP path trie (`trie.go`, `node.go`) and
proofs about its insertion and search behaviour.

Modelling conventions:
* Go strings are modelled as `List Char` (`Str`); Go slicing `s[a:b]`
  becomes `strSlice s a b`, which is total — every occurrence in the
  embedded code is either bounds-checked by the Go source itself or
  reached only with valid indices, and the two places where the Go
  source can slice out of range (`q[len(n.staticKey):]`) are modelled
  explicitly with a bounds test that yields a `panic` result.
* The node arena: Go's heap of `*Node` values becomes a `List GoNode`
  indexed by `Nat`; node identity (pointer equality, used by the
  `visitedNodes` set) is index equality.  The root is index 0, children
  are always appended, so a child's index is never 0.
* Go maps `map[string]*Node` become association lists; `addChild` only
  ever adds an absent key, so lookup order is irrelevant.
* Fallible operations (`insert` on a pattern that would make the Go
  code panic) return `Option`; a `Search` run that panics in Go is the
  explicit result `SearchRes.panicR`.
* `paramValues` keeps Go slice semantics: a backing buffer (capacity)
  plus a length, because `Search` truncates with `paramValues[:lim]`
  where `lim` is bounded by `cap`, not `len`, and appends reuse spare
  capacity.  Go's append growth for small slices (doubling) is modelled
  by `appendParameterValue`.
* The opaque payload fields (`Handler`, `Tag`, `Data`) are not modelled:
  the trie never inspects them and no claim mentions them.
-/

set_option maxRecDepth 10000

abbrev Str := List Char

/-- Go slicing `s[a:b]` (total; all embedded uses have `a ≤ b ≤ |s|`). -/
def strSlice (s : Str) (a b : Nat) : Str := (s.drop a).take (b - a)

/-- First index at which `pat` occurs as a contiguous substring of `s`;
`strings.Index` returns -1 when absent, modelled as `none`. -/
def indexOfSub (s pat : Str) : Option Nat :=
  (List.range (s.length + 1)).find? (fun k => pat.isPrefixOf (s.drop k))

/-- `strings.Contains s pat` (true iff `strings.Index` is non-negative). -/
def containsSub (s pat : Str) : Bool := (indexOfSub s pat).isSome

/-- `strings.LastIndex s "/"`: index of the last path separator, `none`
for Go's -1. -/
def lastIdxSep (s : Str) : Option Nat :=
  (s.reverse.findIdx? (fun c => c = '/')).map (fun j => s.length - 1 - j)

/-- `strings.ToLower` restricted to the character-wise lowering Lean
provides; no claim exercises `caseInsensitive` mode with characters
where this differs from Go. -/
def toLowerStr (s : Str) : Str := s.map Char.toLower

/-- `strings.Split s "/"`: split at every separator, keeping empty
pieces, and yielding one piece even for the empty string. -/
def splitSep : Str → List Str
  | [] => [[]]
  | c :: rest =>
    if c = '/' then [] :: splitSep rest
    else
      match splitSep rest with
      | [] => [[c]]
      | h :: t => (c :: h) :: t

-- Constants from trie.go.
def ParamStart : Str := [':']
def WildcardParamStart : Str := ['*']
def PrefixParamStart : Str := ['+', ':']
def SuffixParamStart : Str := ['-', ':']
def pathSep : Str := ['/']
def pathSepB : Char := '/'

/-- `Node` from node.go; `Handler`/`Tag`/`Data` (opaque payload) omitted.
`endB` is the Go field `end`. -/
structure GoNode where
  parent : Option Nat := none
  children : List (Str × Nat) := []
  hasDynamicChild : Bool := false
  childNamedParameter : Bool := false
  childWildcardParameter : Bool := false
  childPrefixParameter : Bool := false
  childSuffixParameter : Bool := false
  childPrefixLengths : List Nat := []
  childSuffixLengths : List Nat := []
  pathIndex : Nat := 0
  paramCount : Nat := 0
  paramKeys : List Str := []
  endB : Bool := false
  key : Str := []
  staticKey : Str := []
deriving DecidableEq, Repr

/-- `Trie` from trie.go; the node arena replaces the pointer graph,
`root` is index 0. -/
structure GoTrie where
  nodes : List GoNode
  hasRootWildcard : Bool := false
  hasRootSlash : Bool := false
  searchUnvisitedParams : Bool := false
  caseInsensitive : Bool := false
deriving DecidableEq, Repr

/-- Dereference a node index (total; embedded code only uses indices
that are in the arena). -/
def nodeAtL (nodes : List GoNode) (j : Nat) : GoNode := nodes.getD j {}

def nodeAt (t : GoTrie) (j : Nat) : GoNode := nodeAtL t.nodes j

/-- `Node.getChild` (map lookup; `nil` map behaves as empty). -/
def getChild (nodes : List GoNode) (j : Nat) (s : Str) : Option Nat :=
  (nodeAtL nodes j).children.lookup s

/-- `addLength` from node.go.  The Go function receives the address of
the node's slice field; `*paramSlice = append(*paramSlice, l)` appends
through the pointer, after which a deduplicated descending copy
`paramDesc` is computed but assigned only to the **local** pointer
variable (`paramSlice = &paramDesc`), so the caller never observes it.
The caller-visible effect is exactly the append. -/
def addLength (paramSlice : List Nat) (l : Nat) : List Nat :=
  paramSlice ++ [l]

/-- `Node.getPrefixParamChild`'s probe loop over `childPrefixLengths`:
skip lengths longer than the segment, return the first child whose
key is the segment's first `indx` characters followed by `"+:"`. -/
def probePrefixChild (nodes : List GoNode) (j : Nat) (s : Str) : List Nat → Option Nat
  | [] => none
  | indx :: rest =>
    if s.length < indx then probePrefixChild nodes j s rest
    else
      match getChild nodes j (s.take indx ++ PrefixParamStart) with
      | some c => some c
      | none => probePrefixChild nodes j s rest

/-- `Node.getPrefixParamChild`. -/
def getPrefixParamChild (nodes : List GoNode) (j : Nat) (s : Str) : Option Nat :=
  if (nodeAtL nodes j).childPrefixParameter then
    probePrefixChild nodes j s (nodeAtL nodes j).childPrefixLengths
  else none

/-- `Node.getSuffixParamChild`'s probe loop over `childSuffixLengths`:
skip suffix lengths longer than the segment (`indx < 0` in Go), return
the first child whose key is `"-:"` followed by the segment's last
`suffixLen` characters. -/
def probeSuffixChild (nodes : List GoNode) (j : Nat) (s : Str) : List Nat → Option Nat
  | [] => none
  | sufLen :: rest =>
    if s.length < sufLen then probeSuffixChild nodes j s rest
    else
      match getChild nodes j (SuffixParamStart ++ s.drop (s.length - sufLen)) with
      | some c => some c
      | none => probeSuffixChild nodes j s rest

/-- `Node.getSuffixParamChild`. -/
def getSuffixParamChild (nodes : List GoNode) (j : Nat) (s : Str) : Option Nat :=
  if (nodeAtL nodes j).childSuffixParameter then
    probeSuffixChild nodes j s (nodeAtL nodes j).childSuffixLengths
  else none

/-- `Node.findClosestParentWildcardNode`'s climb along `parent` links.
The fuel argument only rules out cycles, which tries built by `insert`
never have (a child's index is strictly larger than its parent's). -/
def findClosestParentWildcardGo (nodes : List GoNode) : Nat → Option Nat → Option Nat
  | 0, _ => none
  | _ + 1, none => none
  | fuel + 1, some j =>
    if (nodeAtL nodes j).childWildcardParameter then getChild nodes j WildcardParamStart
    else findClosestParentWildcardGo nodes fuel (nodeAtL nodes j).parent

/-- `Node.findClosestParentWildcardNode`. -/
def findClosestParentWildcardNode (nodes : List GoNode) (n : Nat) : Option Nat :=
  findClosestParentWildcardGo nodes (nodes.length + 1) (nodeAtL nodes n).parent

/-- One ancestor step of `Node.findClosestUnvisitedNode`: the four
child checks in source order (prefix, suffix, named, wildcard), each
falling through when the child is already visited.  `some r` means the
Go code returns `r` (which is `none` when a set flag has no child — Go
then returns that nil child); `none` means fall through to the next
ancestor. -/
def unvisitedChecksAt (nodes : List GoNode) (visited : List Nat) (j : Nat) (segment : Str) :
    Option (Option Nat) :=
  match getPrefixParamChild nodes j segment with
  | some c => if c ∈ visited then none else some (some c)
  | none => none
  |>.orElse fun _ =>
  match getSuffixParamChild nodes j segment with
  | some c => if c ∈ visited then none else some (some c)
  | none => none
  |>.orElse fun _ =>
  (if (nodeAtL nodes j).childNamedParameter then
    match getChild nodes j ParamStart with
    | some c => if c ∈ visited then none else some (some c)
    | none => some none
  else none)
  |>.orElse fun _ =>
  (if (nodeAtL nodes j).childWildcardParameter then
    match getChild nodes j WildcardParamStart with
    | some c => if c ∈ visited then none else some (some c)
    | none => some none
  else none)

/-- The climb of `Node.findClosestUnvisitedNode`: per ancestor, rewind
`i` to the previous separator (`-1` becomes 0), recompute `start` and
the segment, run the four checks, else climb.  Fuel as above. -/
def findClosestUnvisitedGo (nodes : List GoNode) (visited : List Nat) (path : Str) :
    Nat → Option Nat → Nat → Nat → Option Nat × Nat × Nat
  | 0, _, start, i => (none, start, i)
  | _ + 1, none, start, i => (none, start, i)
  | fuel + 1, some j, _, i =>
    let i2 := match lastIdxSep (path.take i) with
      | some k => k
      | none => 0
    let start2 := match lastIdxSep (path.take i2) with
      | some k => k + 1
      | none => 0
    let segment := strSlice path start2 i2
    match unvisitedChecksAt nodes visited j segment with
    | some r => (r, start2, i2)
    | none => findClosestUnvisitedGo nodes visited path fuel (nodeAtL nodes j).parent start2 i2

/-- `Node.findClosestUnvisitedNode`. -/
def findClosestUnvisitedNode (nodes : List GoNode) (n : Nat) (visited : List Nat)
    (path : Str) (i : Nat) : Option Nat × Nat × Nat :=
  findClosestUnvisitedGo nodes visited path (nodes.length + 1) (nodeAtL nodes n).parent 0 i

/-- `slowPathSplit` from trie.go: `"/"` maps to itself, otherwise one
trailing separator is stripped and the split's leading empty piece is
dropped.  (Go indexes `path[len(path)-1]` and so panics on the empty
string; `insert` below never passes it.) -/
def slowPathSplit (path : Str) : List Str :=
  if path = pathSep then [pathSep]
  else
    let p := if path.getLast? = some pathSepB then path.dropLast else path
    (splitSep p).drop 1

/-- `resolveStaticPart` from trie.go: cut the pattern at the first
`":"`, else at the first `"*"`, else keep it whole. -/
def resolveStaticPart (key : Str) : Str :=
  let i := match indexOfSub key ParamStart with
    | some j => j
    | none =>
      match indexOfSub key WildcardParamStart with
      | some j => j
      | none => key.length
  key.take i

/-- `isPrefixParam` from trie.go. -/
def isPrefixParamSeg (s : Str) : Bool := containsSub s PrefixParamStart

/-- `isSuffixParam` from trie.go. -/
def isSuffixParamSeg (s : Str) : Bool := containsSub s SuffixParamStart

/-- The loop state of `Trie.insert`: the arena, the current node `n`,
the accumulated `paramKeys`, and `hasRootWildcard` (written when a
wildcard segment is registered directly on the root). -/
structure InsState where
  nodes : List GoNode
  cur : Nat
  paramKeys : List Str
  hasRootWildcard : Bool
deriving DecidableEq, Repr

/-- Field update on one arena slot. -/
def modifyNode (nodes : List GoNode) (j : Nat) (f : GoNode → GoNode) : List GoNode :=
  nodes.set j (f (nodeAtL nodes j))

/-- The classification half of one `for i, s := range input` iteration
in `Trie.insert`: record `pathIndex`/`paramCount` on the current node,
classify the segment (named / wildcard / prefix / suffix / static) in
the source's test order, set the matching child flag, extend
`paramKeys`, and rewrite the segment to its canonical child key;
returns (arena, paramKeys, canonical key, hasRootWildcard). -/
def classifyStep (st : InsState) (ia : Nat × Str) : List GoNode × List Str × Str × Bool :=
  let i := ia.1
  let s0 := ia.2
  let nodes1 := modifyNode st.nodes st.cur
    (fun nd => { nd with pathIndex := i + 1, paramCount := st.paramKeys.length })
  let c := s0.headD ' '
  let isParam := c = ':'
  let isWildcard := c = '*'
  let isPre := isPrefixParamSeg s0
  let isSuf := isSuffixParamSeg s0
  if isParam ∨ isWildcard ∨ isPre ∨ isSuf then
    let nodesD := modifyNode nodes1 st.cur (fun nd => { nd with hasDynamicChild := true })
    if isParam then
      (modifyNode nodesD st.cur (fun nd => { nd with childNamedParameter := true }),
       st.paramKeys ++ [s0.drop 1], ParamStart, st.hasRootWildcard)
    else if isWildcard then
      (modifyNode nodesD st.cur (fun nd => { nd with childWildcardParameter := true }),
       st.paramKeys ++ [s0.drop 1], WildcardParamStart,
       st.hasRootWildcard || decide (st.cur = 0))
    else if isPre then
      let indx := (indexOfSub s0 PrefixParamStart).getD 0
      (modifyNode nodesD st.cur (fun nd =>
         { nd with childPrefixParameter := true,
                   childPrefixLengths := addLength nd.childPrefixLengths indx }),
       st.paramKeys ++ [s0.drop (indx + 2)], s0.take (indx + 2), st.hasRootWildcard)
    else
      let indx := (indexOfSub s0 SuffixParamStart).getD 0
      (modifyNode nodesD st.cur (fun nd =>
         { nd with childSuffixParameter := true,
                   childSuffixLengths := addLength nd.childSuffixLengths (s0.length - (indx + 2)) }),
       st.paramKeys ++ [s0.take indx], s0.drop indx, st.hasRootWildcard)
  else (nodes1, st.paramKeys, s0, st.hasRootWildcard)

/-- The descend half of the loop body: lower the canonical key in
`caseInsensitive` mode, create the child if absent (`Node.addChild`
sets the child's parent and appends; a fresh child's index is the
arena size), and return the arena together with the child's index. -/
def descendStep (ci : Bool) (cur : Nat) (nodes2 : List GoNode) (s1 : Str) : List GoNode × Nat :=
  let s2 := if ci then toLowerStr s1 else s1
  match getChild nodes2 cur s2 with
  | some j => (nodes2, j)
  | none =>
    let idx := nodes2.length
    let nodes3 := modifyNode (nodes2 ++ [{ parent := some cur }]) cur
      (fun nd => { nd with children := nd.children ++ [(s2, idx)] })
    (nodes3, idx)

/-- One full iteration of the insert loop: classify, then descend. -/
def insertStep (ci : Bool) (st : InsState) (ia : Nat × Str) : InsState :=
  let r := classifyStep st ia
  let d := descendStep ci st.cur r.1 r.2.2.1
  { nodes := d.1, cur := d.2, paramKeys := r.2.1, hasRootWildcard := r.2.2.2 }

/-- `Trie.insert` (combined with `Trie.Insert`'s empty-pattern panic):
`none` models a Go panic — empty pattern, or an empty segment (Go would
index `s[0]`).  At the terminal node the original `key`, its
`staticKey`, the collected `paramKeys` and `end = true` are recorded
(payload setters omitted — opaque). -/
def GoTrie.insert (t : GoTrie) (key : Str) : Option GoTrie :=
  if key = [] then none
  else
    let input := slowPathSplit key
    if input.any (fun s => s.isEmpty) then none
    else
      let st0 : InsState :=
        { nodes := t.nodes, cur := 0, paramKeys := [], hasRootWildcard := t.hasRootWildcard }
      let st := input.enum.foldl (insertStep t.caseInsensitive) st0
      let nodes2 := modifyNode st.nodes st.cur (fun nd =>
        { nd with paramKeys := st.paramKeys, key := key,
                  staticKey := resolveStaticPart key, endB := true })
      some { t with nodes := nodes2,
                    hasRootWildcard := st.hasRootWildcard,
                    hasRootSlash := t.hasRootSlash || decide (key = pathSep) }

/-- `NewTrieWithOptions`: a fresh trie holding only the root node. -/
def newTrie (suv ci : Bool) : GoTrie :=
  { nodes := [{}], hasRootWildcard := false, hasRootSlash := false,
    searchUnvisitedParams := suv, caseInsensitive := ci }

/-- Insert a list of patterns in order (`none` as soon as one insert
panics). -/
def insertAll (t : GoTrie) : List Str → Option GoTrie
  | [] => some t
  | p :: ps =>
    match GoTrie.insert t p with
    | some t2 => insertAll t2 ps
    | none => none

/-- Build a trie from options and a pattern list. -/
def fromPatterns (suv ci : Bool) (ps : List Str) : Option GoTrie :=
  insertAll (newTrie suv ci) ps

/-- Go slice semantics for `paramValues`: backing buffer plus length
(`len ≤ buf.length = cap`). -/
structure PVals where
  buf : List Str
  len : Nat
deriving DecidableEq, Repr

def pvCap (pv : PVals) : Nat := pv.buf.length

/-- The values `paramValues[0:len]`. -/
def pvValues (pv : PVals) : List Str := pv.buf.take pv.len

/-- `paramValues[:lim]` — keeps the backing buffer, so slots past `lim`
stay in place (callers only pass `lim ≤ cap`). -/
def pvTrunc (pv : PVals) (lim : Nat) : PVals := { pv with len := lim }

/-- `appendParameterValue` from trie.go: reuse spare capacity when
available, else `append` grows the backing array (doubling for small
slices, new slots zeroed). -/
def appendParameterValue (pv : PVals) (v : Str) : PVals :=
  if pv.len < pv.buf.length then
    { buf := pv.buf.set pv.len v, len := pv.len + 1 }
  else
    let newCap := max 1 (2 * pv.buf.length)
    { buf := (pv.buf.take pv.len ++ [v]) ++ List.replicate (newCap - (pv.len + 1)) [],
      len := pv.len + 1 }

def emptyPV : PVals := { buf := [], len := 0 }

/-- Advance `i` to the next loop stop: the Go `for` increments `i`
until `i == end || q[i] == '/'`. -/
def nextStop (q : Str) (i : Nat) : Nat :=
  i + ((q.drop i).takeWhile (fun c => c ≠ '/')).length

/-- Result of the main `for` loop of `Trie.Search`. -/
inductive LoopRes
  | panicL
  | wildFb (w : Nat)
  | nilRes
  | broke (n : Option Nat) (pv : PVals)
  | fuelOut
deriving DecidableEq, Repr

/-- One loop iteration either produces a final loop result or continues
with a new loop state. -/
inductive StepOut
  | res (r : LoopRes)
  | next (n start i : Nat) (pv : PVals) (visited : List Nat)
deriving DecidableEq, Repr

/-- The `if i == end` block at the end of a loop iteration (trie.go
lines 432-446): when at the end of the query, an enabled
`searchUnvisitedParams` retry on a non-terminal node may replace `n`
(possibly by nil) and capture one more value, after which the loop
breaks unconditionally. -/
def endCheck (t : GoTrie) (q qc : Str) (n : Nat) (i : Nat) (pv : PVals)
    (visited : List Nat) : LoopRes :=
  if t.searchUnvisitedParams ∧ (nodeAt t n).endB = false then
    match findClosestUnvisitedNode t.nodes n visited qc i with
    | (some u, s2, i2) =>
      .broke (some u)
        (appendParameterValue (pvTrunc pv (Nat.min (nodeAt t u).paramCount (pvCap pv)))
          (strSlice q s2 i2))
    | (none, _, _) => .broke none pv
  else .broke (some n) pv

/-- After descending to `child` with the segment ending at `i`: run the
end-of-query block, or continue the loop at `i+1` (`i++; start = i`). -/
def stepDescend (t : GoTrie) (q qc : Str) (child : Nat) (i : Nat) (pv : PVals)
    (visited : List Nat) : StepOut :=
  if i = q.length then .res (endCheck t q qc child i pv visited)
  else .next child (i + 1) (i + 1) pv visited

/-- One iteration of the main `for` loop of `Trie.Search`, processing
the segment `qc[start:i]` at node `n` with the source's priority order:
static child, prefix-param child, suffix-param child, named child,
wildcard child (which breaks with the whole remainder captured), then
the `searchUnvisitedParams` backtrack, then the closest parent
wildcard, else nil.  Captured values always come from `q`, lookups from
`qc`. -/
def searchStep (t : GoTrie) (q qc : Str) (n start i0 : Nat) (pv : PVals)
    (visited : List Nat) : StepOut :=
  let i := nextStop q i0
  let s := strSlice qc start i
  match getChild t.nodes n s with
  | some child => stepDescend t q qc child i pv visited
  | none =>
    match getPrefixParamChild t.nodes n s with
    | some child =>
      stepDescend t q qc child i (appendParameterValue pv (strSlice q start i)) (child :: visited)
    | none =>
      match getSuffixParamChild t.nodes n s with
      | some child =>
        stepDescend t q qc child i (appendParameterValue pv (strSlice q start i)) (child :: visited)
      | none =>
        if (nodeAt t n).childNamedParameter then
          match getChild t.nodes n ParamStart with
          | some child =>
            stepDescend t q qc child i (appendParameterValue pv (strSlice q start i))
              (child :: visited)
          | none => .res .panicL
        else if (nodeAt t n).childWildcardParameter then
          match getChild t.nodes n WildcardParamStart with
          | some child => .res (.broke (some child) (appendParameterValue pv (q.drop start)))
          | none => .res .panicL
        else
          match (if t.searchUnvisitedParams then findClosestUnvisitedNode t.nodes n visited qc i
                 else (none, start, i)) with
          | (some u, s2, i2) =>
            stepDescend t q qc u i2
              (appendParameterValue (pvTrunc pv (Nat.min (nodeAt t u).paramCount (pvCap pv)))
                (strSlice q s2 i2))
              (u :: visited)
          | (none, _, _) =>
            match findClosestParentWildcardNode t.nodes n with
            | some w => .res (.wildFb w)
            | none => .res .nilRes

/-- The main `for` loop of `Trie.Search`, fuelled (each unit of fuel is
one segment-processing iteration; `search` supplies enough for every
terminating run). -/
def searchLoop (t : GoTrie) (q qc : Str) :
    Nat → Nat → Nat → Nat → PVals → List Nat → LoopRes
  | 0, _, _, _, _, _ => .fuelOut
  | fuel + 1, n, start, i0, pv, visited =>
    match searchStep t q qc n start i0 pv visited with
    | .res r => r
    | .next n2 s2 i2 pv2 vis2 => searchLoop t q qc fuel n2 s2 i2 pv2 vis2

/-- Result of `Trie.Search` including the emitted `params.Set` calls in
order; `panicR` marks a run in which the Go code panics. -/
inductive SearchRes
  | panicR
  | notFound
  | found (n : Nat) (sets : List (Str × Str))
  | fuelOut
deriving DecidableEq, Repr

/-- `params.Set(n.paramKeys[0], q[len(n.staticKey):])` on a
closest-parent-wildcard node `w`: panics when `paramKeys` is empty or
`staticKey` is longer than the query. -/
def mkWildHit (t : GoTrie) (q : Str) (w : Nat) : SearchRes :=
  match (nodeAt t w).paramKeys with
  | [] => .panicR
  | k0 :: _ =>
    if q.length < (nodeAt t w).staticKey.length then .panicR
    else .found w [(k0, q.drop (nodeAt t w).staticKey.length)]

/-- The root-wildcard fallback at the end of `Trie.Search`
(`params.Set(n.paramKeys[0], q[1:])`). -/
def rootWildFallback (t : GoTrie) (q : Str) : SearchRes :=
  if t.hasRootWildcard then
    match getChild t.nodes 0 WildcardParamStart with
    | none => .panicR
    | some w =>
      match (nodeAt t w).paramKeys with
      | [] => .panicR
      | k0 :: _ => .found w [(k0, q.drop 1)]
  else .notFound

/-- The final `params.Set` loop of `Trie.Search`: one call per captured
value whose index is still within `paramKeys` — i.e. the pairs
`zip paramKeys paramValues`. -/
def emitParams (keys : List Str) (vals : List Str) : List (Str × Str) :=
  List.zip keys vals

/-- The code after the main loop of `Trie.Search`: a nil or
non-terminal node first tries the closest parent wildcard, then the
root wildcard, else reports a miss; a terminal node emits its
parameters. -/
def searchTail (t : GoTrie) (q : Str) : Option Nat → PVals → SearchRes
  | some nd, pv =>
    if (nodeAt t nd).endB then .found nd (emitParams (nodeAt t nd).paramKeys (pvValues pv))
    else
      match findClosestParentWildcardNode t.nodes nd with
      | some w => mkWildHit t q w
      | none => rootWildFallback t q
  | none, _ => rootWildFallback t q

/-- `Trie.Search`: the fast path for the empty and `"/"` queries, then
the main loop from the root with `start = i = 1`. -/
def search (t : GoTrie) (q : Str) : SearchRes :=
  if q.length = 0 ∨ q = pathSep then
    if t.hasRootSlash then
      match getChild t.nodes 0 pathSep with
      | some c => .found c []
      | none => .notFound
    else if t.hasRootWildcard then
      match getChild t.nodes 0 WildcardParamStart with
      | some c => .found c []
      | none => .notFound
    else .notFound
  else
    match searchLoop t q (if t.caseInsensitive then toLowerStr q else q)
        (q.length + t.nodes.length + 2) 0 1 1 emptyPV [] with
    | .fuelOut => .fuelOut
    | .panicL => .panicR
    | .wildFb w => mkWildHit t q w
    | .nilRes => .notFound
    | .broke n2 pv => searchTail t q n2 pv

/-! ## Concrete tries used by the claims -/

/-- Patterns of the backtracking scenario: `/a/b/c/z` and `/a/:p1/c/d`. -/
def patsBacktrack : List Str := ["/a/b/c/z".toList, "/a/:p1/c/d".toList]

/-- The backtracking trie with `searchUnvisitedParams` enabled. -/
def trieBacktrackOn : GoTrie := (fromPatterns true false patsBacktrack).getD (newTrie true false)

/-- The backtracking trie with `searchUnvisitedParams` disabled. -/
def trieBacktrackOff : GoTrie := (fromPatterns false false patsBacktrack).getD (newTrie false false)

/-- Trie with `/hello/*p` and `/hello/:p1/static/:p2`. -/
def trieHello : GoTrie :=
  (fromPatterns false false ["/hello/*p".toList, "/hello/:p1/static/:p2".toList]).getD
    (newTrie false false)

/-- Trie with the prefix-parameter pair `/files/file+:name`, `/files/:name`. -/
def trieFiles : GoTrie :=
  (fromPatterns false false ["/files/file+:name".toList, "/files/:name".toList]).getD
    (newTrie false false)

/-- Trie with the spec's literal suffix pattern (the segment
`-:name.png` under `/img`) next to `/img/:name`. -/
def trieImgLiteral : GoTrie :=
  (fromPatterns false false ["/img/-:name.png".toList, "/img/:name".toList]).getD
    (newTrie false false)

/-- Trie with the suffix pattern in the source's `name-:literal` encoding,
`/img/name-:.png`, next to `/img/:name`. -/
def trieImgEncoded : GoTrie :=
  (fromPatterns false false ["/img/name-:.png".toList, "/img/:name".toList]).getD
    (newTrie false false)

/-- Trie whose suffix-parameter name is longer than everything the
segment has to match: `/verylongname-:p/*w` and `/verylongname-:p/a/b`
(both use only documented pattern syntax). -/
def trieLongSuffix : GoTrie :=
  (fromPatterns false false ["/verylongname-:p/*w".toList, "/verylongname-:p/a/b".toList]).getD
    (newTrie false false)

/-- Trie with two prefix literals of ascending length under one parent:
`/x/a+:p` then `/x/ab+:q`. -/
def trieTwoPrefixes : GoTrie :=
  (fromPatterns false false ["/x/a+:p".toList, "/x/ab+:q".toList]).getD (newTrie false false)

/-- Trie built by inserting the same prefix pattern `/x/a+:p` twice. -/
def trieDupPrefix : GoTrie :=
  (fromPatterns false false ["/x/a+:p".toList, "/x/a+:p".toList]).getD (newTrie false false)

/-- Trie with the single named pattern `/:p/x`. -/
def trieNamedSentinel : GoTrie :=
  (fromPatterns false false ["/:p/x".toList]).getD (newTrie false false)

/-- Trie with the single static pattern `/a/` (trailing slash). -/
def trieTrailing : GoTrie :=
  (fromPatterns false false ["/a/".toList]).getD (newTrie false false)

/-- Trie with the single wildcard pattern `/hello/*p`. -/
def trieHelloWild : GoTrie :=
  (fromPatterns false false ["/hello/*p".toList]).getD (newTrie false false)

/-- A length table that is strictly descending and duplicate-free. -/
def strictlyDescending : List Nat → Bool
  | [] => true
  | [_] => true
  | a :: b :: rest => decide (b < a) && strictlyDescending (b :: rest)

/-! ## Claims -/

/-- C1: with `searchUnvisitedParams` enabled, after inserting
`/a/b/c/z` and `/a/:p1/c/d`, searching `/a/b/c/d` backtracks out of the
static branch and returns the terminal of `/a/:p1/c/d` (node 7), with
exactly the single binding `p1 = "b"`; with the option disabled the same
search returns nil and emits no binding. -/
theorem claim1_unvisited_param_backtracking :
    fromPatterns true false patsBacktrack = some trieBacktrackOn ∧
    fromPatterns false false patsBacktrack = some trieBacktrackOff ∧
    search trieBacktrackOn ("/a/b/c/d".toList) = .found 7 [("p1".toList, "b".toList)] ∧
    (nodeAt trieBacktrackOn 7).key = "/a/:p1/c/d".toList ∧
    (nodeAt trieBacktrackOn 7).endB = true ∧
    search trieBacktrackOff ("/a/b/c/d".toList) = .notFound := by
  decide

/-- C2 (code bug): inserting the prefix patterns `/x/a+:p` then
`/x/ab+:q` leaves the parent's `childPrefixLengths` as `[1, 2]` —
ascending, not strictly descending — and inserting `/x/a+:p` twice
leaves the duplicated table `[1, 1]`: `addLength` assigns its
deduplicated descending copy to a local pointer variable, so the
caller-visible table is plain append. -/
theorem claim2_prefix_length_table_not_descending :
    (fromPatterns false false ["/x/a+:p".toList, "/x/ab+:q".toList] = some trieTwoPrefixes ∧
      (nodeAt trieTwoPrefixes 1).childPrefixLengths = [1, 2] ∧
      strictlyDescending (nodeAt trieTwoPrefixes 1).childPrefixLengths = false) ∧
    (fromPatterns false false ["/x/a+:p".toList, "/x/a+:p".toList] = some trieDupPrefix ∧
      (nodeAt trieDupPrefix 1).childPrefixLengths = [1, 1] ∧
      strictlyDescending (nodeAt trieDupPrefix 1).childPrefixLengths = false) := by
  decide

/-- C3: with `/hello/*p` and `/hello/:p1/static/:p2` inserted,
`/hello/x/static/y` matches the second pattern (node 5) binding
`p1 = "x"`, `p2 = "y"`; `/hello/x` and `/hello/x/other` fall back to
the closest ancestor wildcard terminal of `/hello/*p` (node 2), binding
`p` to the path after the wildcard pattern's `staticKey` `"/hello/"` —
`"x"` and `"x/other"` respectively. -/
theorem claim3_wildcard_fallback :
    search trieHello ("/hello/x/static/y".toList) =
      .found 5 [("p1".toList, "x".toList), ("p2".toList, "y".toList)] ∧
    (nodeAt trieHello 5).key = "/hello/:p1/static/:p2".toList ∧
    search trieHello ("/hello/x".toList) = .found 2 [("p".toList, "x".toList)] ∧
    search trieHello ("/hello/x/other".toList) = .found 2 [("p".toList, "x/other".toList)] ∧
    (nodeAt trieHello 2).key = "/hello/*p".toList ∧
    (nodeAt trieHello 2).staticKey = "/hello/".toList := by
  decide

/-- C4 counterexample: in the trie holding only `/:p/x`, the query
`/:/x` — whose first segment is literally the parameter sentinel
`":"` — descends into the named child through the *static* child
lookup, capturing nothing; the search returns the terminal of `/:p/x`
(node 2, with `paramKeys = ["p"]`) yet emits zero `params.Set` calls,
refuting `#sets = len(paramKeys)`. -/
theorem claim4_counterexample_sentinel_segment :
    fromPatterns false false ["/:p/x".toList] = some trieNamedSentinel ∧
    search trieNamedSentinel ("/:/x".toList) = .found 2 [] ∧
    (nodeAt trieNamedSentinel 2).endB = true ∧
    (nodeAt trieNamedSentinel 2).paramKeys = ["p".toList] := by
  decide

/-- C5 (code bug): both patterns `/verylongname-:p/*w` and
`/verylongname-:p/a/b` use only documented syntax, yet searching
`/xp/a/q` panics: the segment `"xp"` matches the suffix parameter, the
walk dies under `/a`, and the closest-parent-wildcard fallback
evaluates `q[len(n.staticKey):]` = `q[14:]` on the 7-byte query. -/
theorem claim5_search_panics_on_short_query :
    fromPatterns false false ["/verylongname-:p/*w".toList, "/verylongname-:p/a/b".toList] =
      some trieLongSuffix ∧
    (nodeAt trieLongSuffix 2).staticKey = "/verylongname-".toList ∧
    (nodeAt trieLongSuffix 2).key = "/verylongname-:p/*w".toList ∧
    search trieLongSuffix ("/xp/a/q".toList) = .panicR := by
  decide

/-- C6 counterexample: with the spec's literal patterns
(segment `-:name.png` under `/img`) and `/img/:name`, the suffix literal parsed out of
`-:name.png` is `"name.png"` (and the parameter name is empty), so
`/img/logo.png` does **not** match the suffix child: the search returns
the *named* terminal `/img/:name` (node 3), not the suffix terminal
(node 2). -/
theorem claim6_counterexample_literal_suffix_pattern :
    fromPatterns false false ["/img/-:name.png".toList, "/img/:name".toList] =
      some trieImgLiteral ∧
    search trieImgLiteral ("/img/logo.png".toList) =
      .found 3 [("name".toList, "logo.png".toList)] ∧
    (nodeAt trieImgLiteral 3).key = "/img/:name".toList ∧
    (nodeAt trieImgLiteral 2).key = "/img/-:name.png".toList ∧
    (nodeAt trieImgLiteral 2).endB = true := by
  decide

/-- C6 (amended): prefix and suffix children take priority over the
named child and capture the whole segment.  `/files/file+:name` beats
`/files/:name` on `/files/fileA` (binding the full segment) while
`/files/other` falls to the named terminal; with the suffix pattern
written in the source's `name-:literal` encoding, `/img/name-:.png`
beats `/img/:name` on `/img/logo.png` (binding `name = "logo.png"`)
while `/img/logo.jpg` falls to the named terminal. -/
theorem claim6_prefix_suffix_priority :
    search trieFiles ("/files/fileA".toList) = .found 2 [("name".toList, "fileA".toList)] ∧
    (nodeAt trieFiles 2).key = "/files/file+:name".toList ∧
    search trieFiles ("/files/other".toList) = .found 3 [("name".toList, "other".toList)] ∧
    (nodeAt trieFiles 3).key = "/files/:name".toList ∧
    search trieImgEncoded ("/img/logo.png".toList) =
      .found 2 [("name".toList, "logo.png".toList)] ∧
    (nodeAt trieImgEncoded 2).key = "/img/name-:.png".toList ∧
    search trieImgEncoded ("/img/logo.jpg".toList) =
      .found 3 [("name".toList, "logo.jpg".toList)] ∧
    (nodeAt trieImgEncoded 3).key = "/img/:name".toList := by
  decide

/-- C8 counterexample: `/a/` is a purely static pattern (segments
`["a"]`), and inserting it creates the terminal node 1 with
`key = "/a/"`; but searching the pattern string itself scans a final
empty segment after the trailing slash and returns nil instead of the
terminal. -/
theorem claim8_counterexample_trailing_slash :
    fromPatterns false false ["/a/".toList] = some trieTrailing ∧
    (nodeAt trieTrailing 1).endB = true ∧
    (nodeAt trieTrailing 1).key = "/a/".toList ∧
    search trieTrailing ("/a/".toList) = .notFound := by
  decide

/-- C10: with only `/hello/*p` inserted, searching `/hello/` reaches
the wildcard branch on the trailing empty segment and returns the
wildcard terminal (node 2) with exactly one binding, `p = ""`. -/
theorem claim10_wildcard_empty_remainder :
    fromPatterns false false ["/hello/*p".toList] = some trieHelloWild ∧
    search trieHelloWild ("/hello/".toList) = .found 2 [("p".toList, "".toList)] ∧
    (nodeAt trieHelloWild 2).key = "/hello/*p".toList ∧
    (nodeAt trieHelloWild 2).endB = true := by
  decide


/-! ## C4 (amended): the emitted bindings are a prefix of `paramKeys` -/

/-- The first components of zipped pairs are the first list's prefix of
the zip's length. -/
theorem zip_map_fst_take (l1 : List Str) (l2 : List Str) :
    (List.zip l1 l2).map Prod.fst = l1.take (List.zip l1 l2).length := by
  induction l1 generalizing l2 with
  | nil => simp
  | cons a l1 ih =>
    cases l2 with
    | nil => simp
    | cons b l2 => simp [ih]

/-- Shape of any hit produced by the closest-parent-wildcard `Set`. -/
theorem mkWildHit_found (t : GoTrie) (q : Str) (w n : Nat) (sets : List (Str × Str))
    (h : mkWildHit t q w = .found n sets) :
    sets.length ≤ (nodeAt t n).paramKeys.length ∧
    sets.map Prod.fst = (nodeAt t n).paramKeys.take sets.length := by
  unfold mkWildHit at h
  split at h
  · cases h
  · next k0 rest hk =>
    split at h
    · cases h
    · cases h
      exact ⟨by simp [hk], by simp [hk]⟩

/-- Shape of any hit produced by the root-wildcard fallback. -/
theorem rootWildFallback_found (t : GoTrie) (q : Str) (n : Nat) (sets : List (Str × Str))
    (h : rootWildFallback t q = .found n sets) :
    sets.length ≤ (nodeAt t n).paramKeys.length ∧
    sets.map Prod.fst = (nodeAt t n).paramKeys.take sets.length := by
  unfold rootWildFallback at h
  split at h
  · split at h
    · cases h
    · next w hw =>
      split at h
      · cases h
      · next k0 rest hk =>
        cases h
        exact ⟨by simp [hk], by simp [hk]⟩
  · cases h

/-- Shape of any hit produced by the code after the main search loop. -/
theorem searchTail_found (t : GoTrie) (q : Str) (n2 : Option Nat) (pv : PVals)
    (n : Nat) (sets : List (Str × Str)) (h : searchTail t q n2 pv = .found n sets) :
    sets.length ≤ (nodeAt t n).paramKeys.length ∧
    sets.map Prod.fst = (nodeAt t n).paramKeys.take sets.length := by
  cases n2 with
  | none =>
    simp only [searchTail] at h
    exact rootWildFallback_found t q n sets h
  | some nd =>
    simp only [searchTail] at h
    split at h
    · cases h
      constructor
      · simp only [emitParams, List.length_zip]
        exact Nat.min_le_left _ _
      · simpa [emitParams] using zip_map_fst_take _ _
    · split at h
      · next w hw => exact mkWildHit_found t q w n sets h
      · exact rootWildFallback_found t q n sets h

/-- C4 (amended): whenever `search` returns a node `n` with emitted
`params.Set` calls `sets`, the number of calls is at most
`len(n.paramKeys)` (equality can fail when a query segment literally
matches a parameter sentinel child key, see the counterexample), and
the i-th call's name is `n.paramKeys[i]` — the emitted names are the
prefix of `paramKeys` of length `len(sets)`. -/
theorem claim4_emitted_sets_prefix_of_param_keys (t : GoTrie) (q : Str) (n : Nat)
    (sets : List (Str × Str)) (h : search t q = .found n sets) :
    sets.length ≤ (nodeAt t n).paramKeys.length ∧
    sets.map Prod.fst = (nodeAt t n).paramKeys.take sets.length := by
  unfold search at h
  split at h
  · split at h
    · split at h
      · cases h; simp
      · cases h
    · split at h
      · split at h
        · cases h; simp
        · cases h
      · cases h
  · split at h
    · cases h
    · cases h
    · next w hl => exact mkWildHit_found t q w n sets h
    · cases h
    · next n2 pv hl => exact searchTail_found t q n2 pv n sets h

/-- The bindings emitted on `search trieHello "/hello/x"`. -/
def setsHelloX : List (Str × Str) := [("p".toList, "x".toList)]

/-- Witness for C4 (amended) at the `/hello/x` hit. -/
theorem claim4_emitted_sets_witness :
    search trieHello ("/hello/x".toList) = .found 2 setsHelloX ∧
    (setsHelloX.length ≤ (nodeAt trieHello 2).paramKeys.length ∧
      setsHelloX.map Prod.fst = (nodeAt trieHello 2).paramKeys.take setsHelloX.length) :=
  ⟨by decide,
   claim4_emitted_sets_prefix_of_param_keys trieHello ("/hello/x".toList) 2 setsHelloX
     (by decide)⟩

/-! ## C9: trailing slash on insert -/

/-- Trie with the single static pattern `/a` (no trailing slash). -/
def trieNoTrailing : GoTrie :=
  (fromPatterns false false ["/a".toList]).getD (newTrie false false)

/-- C9: one trailing slash is stripped by insertion's segment split —
for every non-empty pattern not already ending in a separator,
`slowPathSplit` (and hence the whole walk `insert` performs) is
unchanged by appending one; concretely, inserting `/a/` and inserting
`/a` both create the terminal at node 1 and a search for `/a` finds
that terminal in both tries. -/
theorem claim9_trailing_slash_insert_equiv :
    (∀ p : Str, p ≠ [] → p.getLast? ≠ some '/' →
      slowPathSplit (p ++ ['/']) = slowPathSplit p) ∧
    fromPatterns false false ["/a/".toList] = some trieTrailing ∧
    fromPatterns false false ["/a".toList] = some trieNoTrailing ∧
    search trieTrailing ("/a".toList) = .found 1 [] ∧
    search trieNoTrailing ("/a".toList) = .found 1 [] ∧
    (nodeAt trieTrailing 1).endB = true ∧ (nodeAt trieNoTrailing 1).endB = true := by
  refine ⟨?_, by decide, by decide, by decide, by decide, by decide, by decide⟩
  intro p hne hlast
  unfold slowPathSplit
  have h1 : p ++ ['/'] ≠ pathSep := by
    intro hc
    rcases p with _ | ⟨a, rest⟩
    · exact hne rfl
    · have := congrArg List.length hc
      simp [pathSep] at this
  have h2 : p ≠ pathSep := by
    intro hc
    rw [hc] at hlast
    exact hlast rfl
  rw [if_neg h1, if_neg h2]
  have h3 : (p ++ ['/']).getLast? = some pathSepB := by
    simp [pathSepB]
  have h4 : ¬ (p.getLast? = some pathSepB) := hlast
  simp only [h3, if_pos, if_neg h4, List.dropLast_concat]

/-- Witness for the universally quantified part of C9 at `p = "/a"`. -/
theorem claim9_trailing_slash_witness :
    slowPathSplit ("/a".toList ++ ['/']) = slowPathSplit ("/a".toList) :=
  claim9_trailing_slash_insert_equiv.1 ("/a".toList) (by decide) (by decide)

/-! ## C7: the empty and `"/"` fast path, tied to what was inserted -/

/-- A pattern that registers a wildcard directly under the root: its
first segment starts with `*`. -/
def isRootWildPattern (p : Str) : Bool :=
  match slowPathSplit p with
  | s :: _ => decide (s.headD ' ' = '*')
  | [] => false

/-- A segment whose first byte is the wildcard marker. -/
def isWildSeg (s : Str) : Bool := decide (s.headD ' ' = '*')

/-- Child indices always point past the root (index 0) and into the
arena: children are appended to the arena, never index 0. -/
def wfIdx (nodes : List GoNode) : Prop :=
  ∀ i k c, getChild nodes i k = some c → 1 ≤ c ∧ c < nodes.length

/-- Well-formedness of a trie state: a non-empty arena whose child
indices avoid the root, and whose root flags are backed by actual root
children. -/
def trieWF (t : GoTrie) : Prop :=
  t.nodes ≠ [] ∧ wfIdx t.nodes ∧
  (t.hasRootSlash = true → (getChild t.nodes 0 pathSep).isSome = true) ∧
  (t.hasRootWildcard = true → (getChild t.nodes 0 WildcardParamStart).isSome = true)

theorem lookup_append_option (k : Str) (l m : List (Str × Nat)) :
    List.lookup k (l ++ m) = (List.lookup k l).orElse fun _ => List.lookup k m := by
  induction l with
  | nil => simp
  | cons a l ih =>
    rcases a with ⟨k2, v⟩
    cases hbe : (k == k2) with
    | true => simp [List.lookup_cons, hbe]
    | false => simp [List.lookup_cons, hbe, ih]

theorem nodeAtL_set_self (nodes : List GoNode) (j : Nat) (nd : GoNode) (h : j < nodes.length) :
    nodeAtL (nodes.set j nd) j = nd := by
  simp [nodeAtL, List.getD_eq_getElem?_getD, List.getElem?_set_self h]

theorem nodeAtL_set_other (nodes : List GoNode) (j i : Nat) (nd : GoNode) (h : j ≠ i) :
    nodeAtL (nodes.set j nd) i = nodeAtL nodes i := by
  simp [nodeAtL, List.getD_eq_getElem?_getD, List.getElem?_set_ne h]

theorem nodeAtL_append_lt (nodes m : List GoNode) (i : Nat) (h : i < nodes.length) :
    nodeAtL (nodes ++ m) i = nodeAtL nodes i := by
  simp [nodeAtL, List.getD_eq_getElem?_getD, List.getElem?_append, h]

theorem nodeAtL_of_le (nodes : List GoNode) (i : Nat) (h : nodes.length ≤ i) :
    nodeAtL nodes i = {} := by
  simp [nodeAtL, List.getD_eq_getElem?_getD, List.getElem?_eq_none h]

theorem getChild_modify_preserve (nodes : List GoNode) (j : Nat) (f : GoNode → GoNode)
    (i : Nat) (k : Str) (hf : ∀ nd, (f nd).children = nd.children) :
    getChild (modifyNode nodes j f) i k = getChild nodes i k := by
  by_cases hij : i = j
  · subst hij
    by_cases hlt : i < nodes.length
    · simp [getChild, modifyNode, nodeAtL_set_self _ _ _ hlt, hf]
    · unfold modifyNode
      rw [List.set_eq_of_length_le (Nat.le_of_not_lt hlt)]
  · simp [getChild, modifyNode, nodeAtL_set_other _ _ _ _ (fun hji => hij hji.symm)]

theorem classifyStep_getChild (st : InsState) (ia : Nat × Str) (i : Nat) (k : Str) :
    getChild (classifyStep st ia).1 i k = getChild st.nodes i k := by
  simp only [classifyStep]
  repeat' split
  all_goals first
    | (rw [getChild_modify_preserve, getChild_modify_preserve,
         getChild_modify_preserve] <;> (intro nd; rfl))
    | (rw [getChild_modify_preserve] <;> (intro nd; rfl))

theorem classifyStep_length (st : InsState) (ia : Nat × Str) :
    (classifyStep st ia).1.length = st.nodes.length := by
  simp only [classifyStep]
  repeat' split
  all_goals simp [modifyNode]

theorem classifyStep_hasRW (st : InsState) (ia : Nat × Str) :
    (classifyStep st ia).2.2.2 =
      (st.hasRootWildcard || (decide (st.cur = 0) && isWildSeg ia.2)) := by
  simp only [classifyStep]
  split
  · next hdyn =>
    split
    · next hp =>
      have hns : isWildSeg ia.2 = false := by
        simp only [isWildSeg, hp]
        rfl
      rw [hns]
      simp
    · next hnp =>
      split
      · next hw =>
        have hws : isWildSeg ia.2 = true := by
          simp only [isWildSeg, hw]
          rfl
        rw [hws]
        simp
      · next hnw =>
        have hns : isWildSeg ia.2 = false := by
          simp only [isWildSeg]
          simpa using hnw
        split
        · rw [hns]
          simp
        · rw [hns]
          simp
  · next hnd =>
    have hnw : ¬ (ia.2.headD ' ' = '*') := fun hw => hnd (Or.inr (Or.inl hw))
    have hns : isWildSeg ia.2 = false := by
      simp only [isWildSeg]
      simpa using hnw
    rw [hns]
    simp

theorem classifyStep_key_wild (st : InsState) (ia : Nat × Str) (hw : isWildSeg ia.2 = true) :
    (classifyStep st ia).2.2.1 = WildcardParamStart := by
  have hw2 : ia.2.headD ' ' = '*' := by
    unfold isWildSeg at hw
    exact of_decide_eq_true hw
  simp only [classifyStep, hw2]
  rw [if_pos (by simp), if_neg (by decide), if_pos (by trivial)]

theorem classifyStep_key_slash (st : InsState) (ia : Nat × Str) (hs : ia.2 = pathSep) :
    (classifyStep st ia).2.2.1 = pathSep := by
  simp only [classifyStep, hs]
  rw [if_neg (by decide)]

theorem getChild_append_lt (nodes2 m : List GoNode) (i : Nat) (k : Str)
    (h : i < nodes2.length) :
    getChild (nodes2 ++ m) i k = getChild nodes2 i k := by
  rw [getChild, getChild, nodeAtL_append_lt _ _ _ h]

theorem getChild_addChild (nodes2 : List GoNode) (cur : Nat) (s2 : Str) (nw : GoNode)
    (idx : Nat) (i : Nat) (k : Str) (hcur : cur < (nodes2 ++ [nw]).length) :
    getChild (modifyNode (nodes2 ++ [nw]) cur
      (fun nd => { nd with children := nd.children ++ [(s2, idx)] })) i k =
    (if i = cur then
      ((getChild (nodes2 ++ [nw]) i k).orElse fun _ => List.lookup k [(s2, idx)])
     else getChild (nodes2 ++ [nw]) i k) := by
  by_cases hic : i = cur
  · subst hic
    rw [if_pos rfl, getChild, modifyNode, nodeAtL_set_self _ _ _ hcur, getChild]
    exact lookup_append_option k _ _
  · rw [if_neg hic, getChild, modifyNode, nodeAtL_set_other _ _ _ _ (fun hh => hic hh.symm)]
    rfl

theorem descendStep_mono (ci : Bool) (cur : Nat) (nodes2 : List GoNode) (s1 : Str)
    (i : Nat) (k : Str) (c : Nat) (hcur : cur < nodes2.length)
    (h : getChild nodes2 i k = some c) :
    getChild (descendStep ci cur nodes2 s1).1 i k = some c := by
  have hi : i < nodes2.length := by
    by_contra hge
    rw [getChild, nodeAtL_of_le nodes2 i (Nat.le_of_not_lt hge)] at h
    simp at h
  simp only [descendStep]
  split
  · exact h
  · rw [getChild_addChild _ _ _ _ _ _ _ (by simpa using Nat.lt_succ_of_lt hcur)]
    rw [getChild_append_lt _ _ _ _ hi, h]
    by_cases hic : i = cur
    · rw [if_pos hic]
      rfl
    · rw [if_neg hic]

theorem descendStep_wf (ci : Bool) (cur : Nat) (nodes2 : List GoNode) (s1 : Str)
    (hwf : wfIdx nodes2) (hcur : cur < nodes2.length) :
    wfIdx (descendStep ci cur nodes2 s1).1 ∧
    1 ≤ (descendStep ci cur nodes2 s1).2 ∧
    (descendStep ci cur nodes2 s1).2 < (descendStep ci cur nodes2 s1).1.length ∧
    nodes2.length ≤ (descendStep ci cur nodes2 s1).1.length := by
  simp only [descendStep]
  split
  · next j hsome =>
    exact ⟨hwf, (hwf _ _ _ hsome).1, (hwf _ _ _ hsome).2, Nat.le_refl _⟩
  · next hnone =>
    have hlen : (modifyNode (nodes2 ++ [({ parent := some cur } : GoNode)]) cur
        (fun nd => { nd with children := nd.children ++
          [((if ci then toLowerStr s1 else s1), nodes2.length)] })).length
        = nodes2.length + 1 := by
      simp [modifyNode]
    refine ⟨?_, ?_, ?_, ?_⟩
    · intro i k c h
      rw [getChild_addChild _ _ _ _ _ _ _ (by simpa using Nat.lt_succ_of_lt hcur)] at h
      rw [hlen]
      by_cases hic : i = cur
      · rw [if_pos hic] at h
        rcases ho : getChild (nodes2 ++ [({ parent := some cur } : GoNode)]) i k with _ | c2
        · rw [ho] at h
          simp only [Option.orElse] at h
          rcases hbe : (k == (if ci then toLowerStr s1 else s1)) with _ | _ <;>
            simp [List.lookup, hbe] at h
          omega
        · rw [ho] at h
          simp only [Option.orElse] at h
          cases h
          have hi : i < nodes2.length := by
            by_contra hge
            have hge2 : nodes2.length ≤ i := Nat.le_of_not_lt hge
            by_cases hieq : i = nodes2.length
            · have : nodeAtL (nodes2 ++ [({ parent := some cur } : GoNode)]) i =
                  ({ parent := some cur } : GoNode) := by
                rw [hieq, nodeAtL]
                simp [List.getD_eq_getElem?_getD, List.getElem?_concat_length]
              rw [getChild, this] at ho
              simp [List.lookup] at ho
            · have : nodes2.length + 1 ≤ i := by omega
              rw [getChild, nodeAtL_of_le _ _ (by simpa using this)] at ho
              simp [List.lookup] at ho
          rw [getChild_append_lt _ _ _ _ hi] at ho
          have := hwf _ _ _ ho
          omega
      · rw [if_neg hic] at h
        have hi : i < nodes2.length := by
          by_contra hge
          have hge2 : nodes2.length ≤ i := Nat.le_of_not_lt hge
          by_cases hieq : i = nodes2.length
          · have : nodeAtL (nodes2 ++ [({ parent := some cur } : GoNode)]) i =
                ({ parent := some cur } : GoNode) := by
              rw [hieq, nodeAtL]
              simp [List.getD_eq_getElem?_getD, List.getElem?_concat_length]
            rw [getChild, this] at h
            simp [List.lookup] at h
          · have h2 : nodes2.length + 1 ≤ i := by omega
            rw [getChild, nodeAtL_of_le _ _ (by simpa using h2)] at h
            simp [List.lookup] at h
        rw [getChild_append_lt _ _ _ _ hi] at h
        have := hwf _ _ _ h
        omega
    · show 1 ≤ nodes2.length
      omega
    · rw [hlen]
      omega
    · rw [hlen]
      omega

theorem descendStep_creates (ci : Bool) (cur : Nat) (nodes2 : List GoNode) (s1 : Str)
    (hcur : cur < nodes2.length) :
    (getChild (descendStep ci cur nodes2 s1).1 cur
      (if ci then toLowerStr s1 else s1)).isSome = true := by
  simp only [descendStep]
  split
  · next j hsome => simp [hsome]
  · next hnone =>
    rw [getChild_addChild _ _ _ _ _ _ _ (by simpa using Nat.lt_succ_of_lt hcur)]
    rw [if_pos rfl, getChild_append_lt _ _ _ _ hcur, hnone]
    simp [List.lookup, Option.orElse]

theorem insertStep_getChild_mono (ci : Bool) (st : InsState) (ia : Nat × Str)
    (i : Nat) (k : Str) (c : Nat) (hcur : st.cur < st.nodes.length)
    (h : getChild st.nodes i k = some c) :
    getChild (insertStep ci st ia).nodes i k = some c := by
  simp only [insertStep]
  refine descendStep_mono _ _ _ _ _ _ _ ?_ ?_
  · rw [classifyStep_length]
    exact hcur
  · rw [classifyStep_getChild]
    exact h

theorem insertStep_hasRW (ci : Bool) (st : InsState) (ia : Nat × Str) :
    (insertStep ci st ia).hasRootWildcard =
      (st.hasRootWildcard || (decide (st.cur = 0) && isWildSeg ia.2)) := by
  simp only [insertStep]
  exact classifyStep_hasRW st ia

theorem insertStep_wf (ci : Bool) (st : InsState) (ia : Nat × Str)
    (hwf : wfIdx st.nodes) (hcur : st.cur < st.nodes.length) :
    wfIdx (insertStep ci st ia).nodes ∧
    1 ≤ (insertStep ci st ia).cur ∧
    (insertStep ci st ia).cur < (insertStep ci st ia).nodes.length ∧
    st.nodes.length ≤ (insertStep ci st ia).nodes.length := by
  have hwf2 : wfIdx (classifyStep st ia).1 := by
    intro i k c h
    rw [classifyStep_getChild] at h
    have hb := hwf i k c h
    rw [classifyStep_length]
    exact hb
  have hcur2 : st.cur < (classifyStep st ia).1.length := by
    rw [classifyStep_length]
    exact hcur
  have hd := descendStep_wf ci st.cur (classifyStep st ia).1 (classifyStep st ia).2.2.1
    hwf2 hcur2
  have hlen := classifyStep_length st ia
  simp only [insertStep]
  exact ⟨hd.1, hd.2.1, hd.2.2.1, by rw [← hlen]; exact hd.2.2.2⟩

theorem insertStep_wildchild (ci : Bool) (st : InsState) (ia : Nat × Str)
    (hcur0 : st.cur = 0) (hw : isWildSeg ia.2 = true) (hpos : 0 < st.nodes.length) :
    (getChild (insertStep ci st ia).nodes 0 WildcardParamStart).isSome = true := by
  simp only [insertStep]
  rw [classifyStep_key_wild st ia hw]
  have hlow : (if ci then toLowerStr WildcardParamStart else WildcardParamStart) =
      WildcardParamStart := by
    cases ci
    · rfl
    · decide
  have hc := descendStep_creates ci st.cur (classifyStep st ia).1 WildcardParamStart
    (by rw [classifyStep_length]; omega)
  rw [hlow] at hc
  rw [← hcur0]
  exact hc

theorem insertStep_slashchild (ci : Bool) (st : InsState) (ia : Nat × Str)
    (hcur0 : st.cur = 0) (hs : ia.2 = pathSep) (hpos : 0 < st.nodes.length) :
    (getChild (insertStep ci st ia).nodes 0 pathSep).isSome = true := by
  simp only [insertStep]
  rw [classifyStep_key_slash st ia hs]
  have hlow : (if ci then toLowerStr pathSep else pathSep) = pathSep := by
    cases ci
    · rfl
    · decide
  have hc := descendStep_creates ci st.cur (classifyStep st ia).1 pathSep
    (by rw [classifyStep_length]; omega)
  rw [hlow] at hc
  rw [← hcur0]
  exact hc

/-- Folding the insert loop from a state that already left the root
(`1 ≤ cur`) never changes `hasRootWildcard`, keeps the arena
well-formed, and preserves existing children. -/
theorem foldl_insertStep_rest (ci : Bool) (l : List (Nat × Str)) :
    ∀ (st : InsState), wfIdx st.nodes → st.cur < st.nodes.length → 1 ≤ st.cur →
      ((List.foldl (insertStep ci) st l).hasRootWildcard = st.hasRootWildcard ∧
       wfIdx (List.foldl (insertStep ci) st l).nodes ∧
       (List.foldl (insertStep ci) st l).cur < (List.foldl (insertStep ci) st l).nodes.length ∧
       st.nodes.length ≤ (List.foldl (insertStep ci) st l).nodes.length ∧
       (∀ i k c, getChild st.nodes i k = some c →
         getChild (List.foldl (insertStep ci) st l).nodes i k = some c)) := by
  induction l with
  | nil =>
    intro st hwf hcur hone
    exact ⟨rfl, hwf, hcur, Nat.le_refl _, fun _ _ _ h => h⟩
  | cons ia l ih =>
    intro st hwf hcur hone
    have hstep := insertStep_wf ci st ia hwf hcur
    have hrw := insertStep_hasRW ci st ia
    have hne0 : decide (st.cur = 0) = false := by
      simp only [decide_eq_false_iff_not]
      omega
    have hih := ih (insertStep ci st ia) hstep.1 hstep.2.2.1 hstep.2.1
    rw [List.foldl_cons]
    refine ⟨?_, hih.2.1, hih.2.2.1, ?_, ?_⟩
    · rw [hih.1, hrw, hne0]
      simp
    · exact Nat.le_trans hstep.2.2.2 hih.2.2.2.1
    · intro i k c h
      exact hih.2.2.2.2 i k c (insertStep_getChild_mono ci st ia i k c hcur h)

theorem modifyNode_length (nodes : List GoNode) (j : Nat) (f : GoNode → GoNode) :
    (modifyNode nodes j f).length = nodes.length := by
  simp [modifyNode]

theorem getChild_modify_term (nodes : List GoNode) (j : Nat) (pk : List Str) (ky sk : Str)
    (i : Nat) (k : Str) :
    getChild (modifyNode nodes j (fun nd =>
      { nd with paramKeys := pk, key := ky, staticKey := sk, endB := true })) i k =
    getChild nodes i k := by
  rw [getChild_modify_preserve]
  intro nd
  rfl

/-- One `insert` updates the root flags exactly as the pattern
dictates and preserves well-formedness. -/
theorem insert_props (t t2 : GoTrie) (p : Str) (hwf : trieWF t) (h : GoTrie.insert t p = some t2) :
    t2.hasRootSlash = (t.hasRootSlash || decide (p = pathSep)) ∧
    t2.hasRootWildcard = (t.hasRootWildcard || isRootWildPattern p) ∧
    trieWF t2 := by
  have hpos : 0 < t.nodes.length := List.length_pos.mpr hwf.1
  simp only [GoTrie.insert] at h
  split at h
  · cases h
  · split at h
    · cases h
    · cases h
      rcases hsplit : slowPathSplit p with _ | ⟨s0, rest⟩
      · -- no segments: the fold is the identity
        refine ⟨rfl, ?_, ?_⟩
        · simp [isRootWildPattern, hsplit]
        · refine ⟨?_, ?_, ?_, ?_⟩
          · simp only []
            intro hcon
            have := congrArg List.length hcon
            rw [modifyNode_length, List.length_nil] at this
            simp only [List.enum_nil, List.foldl_nil] at this
            omega
          · intro i k c hc
            simp only [] at hc ⊢
            rw [getChild_modify_term] at hc
            have hb := hwf.2.1 i k c hc
            rw [modifyNode_length]
            exact hb
          · intro hrs
            simp only [] at hrs ⊢
            rw [getChild_modify_term]
            rcases Bool.or_eq_true_iff.mp hrs with ha | hb
            · exact hwf.2.2.1 ha
            · exfalso
              have hp : p = pathSep := of_decide_eq_true hb
              rw [hp] at hsplit
              cases hsplit
          · intro hrw
            simp only [] at hrw ⊢
            rw [getChild_modify_term]
            exact hwf.2.2.2 hrw
      · -- at least one segment
        rw [List.enum_cons, List.foldl_cons]
        have hst1 := insertStep_wf t.caseInsensitive
          ⟨t.nodes, 0, [], t.hasRootWildcard⟩ (0, s0) hwf.2.1 hpos
        have hfold := foldl_insertStep_rest t.caseInsensitive (List.enumFrom 1 rest)
          (insertStep t.caseInsensitive ⟨t.nodes, 0, [], t.hasRootWildcard⟩ (0, s0))
          hst1.1 hst1.2.2.1 hst1.2.1
        have hrw1 := insertStep_hasRW t.caseInsensitive
          ⟨t.nodes, 0, [], t.hasRootWildcard⟩ (0, s0)
        refine ⟨rfl, ?_, ?_⟩
        · simp only []
          rw [hfold.1, hrw1]
          simp [isRootWildPattern, hsplit, isWildSeg]
        · refine ⟨?_, ?_, ?_, ?_⟩
          · simp only []
            intro hcon
            have := congrArg List.length hcon
            rw [modifyNode_length, List.length_nil] at this
            have hle := Nat.le_trans hst1.2.2.2 hfold.2.2.2.1
            omega
          · intro i k c hc
            simp only [] at hc ⊢
            rw [getChild_modify_term] at hc
            have hb := hfold.2.1 i k c hc
            rw [modifyNode_length]
            exact hb
          · intro hrs
            simp only [] at hrs ⊢
            rw [getChild_modify_term]
            rcases Bool.or_eq_true_iff.mp hrs with ha | hb
            · obtain ⟨c, hc⟩ := Option.isSome_iff_exists.mp (hwf.2.2.1 ha)
              have hc1 := insertStep_getChild_mono t.caseInsensitive
                ⟨t.nodes, 0, [], t.hasRootWildcard⟩ (0, s0) 0 pathSep c hpos hc
              have hc2 := hfold.2.2.2.2 0 pathSep c hc1
              simp [hc2]
            · have hp : p = pathSep := of_decide_eq_true hb
              rw [hp] at hsplit
              have hs0 : s0 = pathSep := by
                have : slowPathSplit pathSep = [pathSep] := rfl
                rw [this] at hsplit
                cases hsplit
                rfl
              have hrest : rest = [] := by
                have : slowPathSplit pathSep = [pathSep] := rfl
                rw [this] at hsplit
                cases hsplit
                rfl
              rw [hrest]
              simp only [List.enumFrom, List.foldl_nil]
              obtain ⟨c, hc⟩ := Option.isSome_iff_exists.mp
                (insertStep_slashchild t.caseInsensitive
                  ⟨t.nodes, 0, [], t.hasRootWildcard⟩ (0, s0) rfl hs0 hpos)
              simp [hc]
          · intro hrw
            simp only [] at hrw ⊢
            rw [getChild_modify_term]
            rw [hfold.1, hrw1] at hrw
            rcases Bool.or_eq_true_iff.mp hrw with ha | hb
            · obtain ⟨c, hc⟩ := Option.isSome_iff_exists.mp (hwf.2.2.2 ha)
              have hc1 := insertStep_getChild_mono t.caseInsensitive
                ⟨t.nodes, 0, [], t.hasRootWildcard⟩ (0, s0) 0 WildcardParamStart c hpos hc
              have hc2 := hfold.2.2.2.2 0 WildcardParamStart c hc1
              simp [hc2]
            · have hw : isWildSeg s0 = true := by
                rcases Bool.and_eq_true_iff.mp hb with ⟨_, hw⟩
                exact hw
              obtain ⟨c, hc⟩ := Option.isSome_iff_exists.mp
                (insertStep_wildchild t.caseInsensitive
                  ⟨t.nodes, 0, [], t.hasRootWildcard⟩ (0, s0) rfl hw hpos)
              have hc2 := hfold.2.2.2.2 0 WildcardParamStart c hc
              simp [hc2]

theorem newTrie_wf (suv ci : Bool) : trieWF (newTrie suv ci) := by
  refine ⟨by simp [newTrie], ?_, ?_, ?_⟩
  · intro i k c h
    exfalso
    cases i with
    | zero => simp [getChild, nodeAtL, newTrie, List.lookup] at h
    | succ n => simp [getChild, nodeAtL, newTrie] at h
  · intro h
    simp [newTrie] at h
  · intro h
    simp [newTrie] at h

/-- A whole build run: the root flags record exactly whether `"/"` was
inserted and whether some pattern registers a root wildcard, and the
result is well-formed. -/
theorem insertAll_props (ps : List Str) :
    ∀ (t0 t : GoTrie), insertAll t0 ps = some t → trieWF t0 →
      (t.hasRootSlash = (t0.hasRootSlash || ps.any (fun p => decide (p = pathSep)))) ∧
      (t.hasRootWildcard = (t0.hasRootWildcard || ps.any isRootWildPattern)) ∧
      trieWF t := by
  induction ps with
  | nil =>
    intro t0 t h hwf
    simp only [insertAll] at h
    cases h
    exact ⟨by simp, by simp, hwf⟩
  | cons p ps ih =>
    intro t0 t h hwf
    simp only [insertAll] at h
    split at h
    · next t1 h1 =>
      have hp := insert_props t0 t1 p hwf h1
      have hr := ih t1 t h hp.2.2
      refine ⟨?_, ?_, hr.2.2⟩
      · rw [hr.1, hp.1, List.any_cons]
        simp [Bool.or_assoc]
      · rw [hr.2.1, hp.2.1, List.any_cons]
        simp [Bool.or_assoc]
    · cases h

/-- C7: on the empty query and on `"/"`, `search` returns the root's
`"/"` child when a `"/"` pattern was inserted; otherwise, when some
pattern registered a wildcard directly under the root, it returns the
root's wildcard child — in both cases without any `params.Set` call —
and otherwise it returns nil.  Quantified over every pattern list the
build accepts and both option flags. -/
theorem claim7_empty_and_slash_fast_path (suv ci : Bool) (ps : List Str) (t : GoTrie)
    (h : fromPatterns suv ci ps = some t) :
    ((pathSep ∈ ps) →
      ∃ c, getChild t.nodes 0 pathSep = some c ∧
        search t [] = .found c [] ∧ search t pathSep = .found c []) ∧
    ((pathSep ∉ ps ∧ (∃ p ∈ ps, isRootWildPattern p = true)) →
      ∃ c, getChild t.nodes 0 WildcardParamStart = some c ∧
        search t [] = .found c [] ∧ search t pathSep = .found c []) ∧
    ((pathSep ∉ ps ∧ ¬ (∃ p ∈ ps, isRootWildPattern p = true)) →
      search t [] = .notFound ∧ search t pathSep = .notFound) := by
  have hall := insertAll_props ps (newTrie suv ci) t h (newTrie_wf suv ci)
  have hwft := hall.2.2
  have hrs : t.hasRootSlash = ps.any (fun p => decide (p = pathSep)) := by
    rw [hall.1]
    simp [newTrie]
  have hrw : t.hasRootWildcard = ps.any isRootWildPattern := by
    rw [hall.2.1]
    simp [newTrie]
  refine ⟨?_, ?_, ?_⟩
  · intro hmem
    have hrs2 : t.hasRootSlash = true := by
      rw [hrs]
      exact List.any_eq_true.mpr ⟨pathSep, hmem, by simp⟩
    obtain ⟨c, hc⟩ := Option.isSome_iff_exists.mp (hwft.2.2.1 hrs2)
    refine ⟨c, hc, ?_, ?_⟩
    · simp [search, hrs2, hc]
    · simp [search, hrs2, hc]
  · rintro ⟨hnmem, p, hpmem, hpw⟩
    have hrs2 : t.hasRootSlash = false := by
      rw [hrs]
      simp only [List.any_eq_false, decide_eq_true_eq]
      intro x hx hxx
      exact hnmem (hxx ▸ hx)
    have hrw2 : t.hasRootWildcard = true := by
      rw [hrw]
      exact List.any_eq_true.mpr ⟨p, hpmem, hpw⟩
    obtain ⟨c, hc⟩ := Option.isSome_iff_exists.mp (hwft.2.2.2 hrw2)
    refine ⟨c, hc, ?_, ?_⟩
    · simp [search, hrs2, hrw2, hc]
    · simp [search, hrs2, hrw2, hc]
  · rintro ⟨hnmem, hnw⟩
    have hrs2 : t.hasRootSlash = false := by
      rw [hrs]
      simp only [List.any_eq_false, decide_eq_true_eq]
      intro x hx hxx
      exact hnmem (hxx ▸ hx)
    have hrw2 : t.hasRootWildcard = false := by
      rw [hrw]
      simp only [List.any_eq_false]
      intro x hx hxx
      exact hnw ⟨x, hx, hxx⟩
    constructor
    · simp [search, hrs2, hrw2]
    · simp [search, hrs2, hrw2]

/-- Trie with the single root-wildcard pattern. -/
def trieRootWild : GoTrie :=
  (fromPatterns false false ["/*all".toList]).getD (newTrie false false)

/-- Witness for C7 in its root-wildcard case, on the `/*all` trie. -/
theorem claim7_fast_path_witness :
    fromPatterns false false ["/*all".toList] = some trieRootWild ∧
    (∃ c, getChild trieRootWild.nodes 0 WildcardParamStart = some c ∧
      search trieRootWild [] = .found c [] ∧ search trieRootWild pathSep = .found c []) :=
  ⟨by decide,
   (claim7_empty_and_slash_fast_path false false ["/*all".toList] trieRootWild
      (by decide)).2.1 (by decide)⟩

/-! ## C8 (amended): round trip for purely static patterns -/

/-- A purely static pattern segment: non-empty, does not start with the
named or wildcard marker, contains neither the prefix nor the suffix
token, and holds no separator. -/
def staticSeg (s : Str) : Bool :=
  (!s.isEmpty) && (!(s.headD ' ' == ':')) && (!(s.headD ' ' == '*')) &&
  (!isPrefixParamSeg s) && (!isSuffixParamSeg s) && (decide ('/' ∉ s))

/-- Join segments with the path separator. -/
def joinSegs : List Str → Str
  | [] => []
  | [s] => s
  | s :: s2 :: rest => s ++ '/' :: joinSegs (s2 :: rest)

/-- The pattern string `/s1/.../sk` of a segment list. -/
def mkStaticPat (segs : List Str) : Str := '/' :: joinSegs segs

theorem splitSep_no_sep (s : Str) (h : '/' ∉ s) : splitSep s = [s] := by
  induction s with
  | nil => rfl
  | cons c rest ih =>
    have hc : ¬ (c = '/') := fun hcc => h (by simp [hcc])
    have hr : '/' ∉ rest := fun hm => h (by simp [hm])
    simp only [splitSep, if_neg hc, ih hr]

theorem splitSep_chunk (s r : Str) (h : '/' ∉ s) :
    splitSep (s ++ '/' :: r) = s :: splitSep r := by
  induction s with
  | nil => simp [splitSep]
  | cons c s2 ih =>
    have hc : ¬ (c = '/') := fun hcc => h (by simp [hcc])
    have hs2 : '/' ∉ s2 := fun hm => h (by simp [hm])
    simp only [List.cons_append, splitSep, if_neg hc, List.append_eq]
    rw [ih hs2]

theorem splitSep_joinSegs (segs : List Str) (hne : segs ≠ [])
    (hstat : ∀ s ∈ segs, '/' ∉ s) :
    splitSep (joinSegs segs) = segs := by
  induction segs with
  | nil => cases hne rfl
  | cons s rest ih =>
    cases rest with
    | nil =>
      simp only [joinSegs]
      exact splitSep_no_sep s (hstat s (by simp))
    | cons s2 r2 =>
      simp only [joinSegs]
      rw [splitSep_chunk s _ (hstat s (by simp))]
      rw [ih (by simp) (fun x hx => hstat x (by simp [hx]))]

theorem joinSegs_ne_nil (s : Str) (rest : List Str) (hs : s ≠ []) :
    joinSegs (s :: rest) ≠ [] := by
  cases rest with
  | nil => simpa [joinSegs] using hs
  | cons s2 r2 => simp [joinSegs]

theorem joinSegs_getLast? (segs : List Str) (hne : segs ≠ [])
    (hnonempty : ∀ s ∈ segs, s ≠ []) :
    (joinSegs segs).getLast? = (segs.getLast hne).getLast? := by
  induction segs with
  | nil => cases hne rfl
  | cons s rest ih =>
    cases rest with
    | nil => simp [joinSegs]
    | cons s2 r2 =>
      simp only [joinSegs]
      rw [show (s ++ '/' :: joinSegs (s2 :: r2)) = (s ++ ['/']) ++ joinSegs (s2 :: r2) by simp]
      rw [List.getLast?_append]
      rw [ih (by simp) (fun x hx => hnonempty x (by simp [hx]))]
      rw [List.getLast_cons_cons]
      rcases ho : ((s2 :: r2).getLast (by simp)).getLast? with _ | c
      · exfalso
        rw [List.getLast?_eq_none_iff] at ho
        exact hnonempty ((s2 :: r2).getLast (by simp))
          (List.mem_cons_of_mem s (List.getLast_mem (by simp))) ho
      · simp [ho]

theorem staticSeg_facts (s : Str) (h : staticSeg s = true) :
    s ≠ [] ∧ ¬ (s.headD ' ' = ':') ∧ ¬ (s.headD ' ' = '*') ∧
    isPrefixParamSeg s = false ∧ isSuffixParamSeg s = false ∧ '/' ∉ s := by
  simp only [staticSeg, Bool.and_eq_true, Bool.not_eq_true', beq_eq_false_iff_ne, ne_eq,
    List.isEmpty_eq_false, decide_eq_true_eq] at h
  exact ⟨h.1.1.1.1.1, h.1.1.1.1.2, h.1.1.1.2, h.1.1.2, h.1.2, h.2⟩

theorem classifyStep_static (st : InsState) (ia : Nat × Str) (hs : staticSeg ia.2 = true) :
    classifyStep st ia =
      (modifyNode st.nodes st.cur
        (fun nd => { nd with pathIndex := ia.1 + 1, paramCount := st.paramKeys.length }),
       st.paramKeys, ia.2, st.hasRootWildcard) := by
  obtain ⟨h1, h2, h3, h4, h5, h6⟩ := staticSeg_facts ia.2 hs
  simp only [classifyStep]
  rw [if_neg ?hcond]
  case hcond =>
    rintro (hh | hh | hh | hh)
    · exact h2 hh
    · exact h3 hh
    · simp [h4] at hh
    · simp [h5] at hh

theorem children_modifyNode (nodes : List GoNode) (j0 : Nat) (f : GoNode → GoNode)
    (hf : ∀ nd, (f nd).children = nd.children) (j : Nat) :
    (nodeAtL (modifyNode nodes j0 f) j).children = (nodeAtL nodes j).children := by
  by_cases hj : j = j0
  · subst hj
    by_cases hlt : j < nodes.length
    · rw [modifyNode, nodeAtL_set_self _ _ _ hlt, hf]
    · rw [modifyNode, List.set_eq_of_length_le (Nat.le_of_not_lt hlt)]
  · rw [modifyNode, nodeAtL_set_other _ _ _ _ (fun hh => hj hh.symm)]

theorem nodeAtL_concat_length (nodes : List GoNode) (nw : GoNode) :
    nodeAtL (nodes ++ [nw]) nodes.length = nw := by
  rw [nodeAtL, List.getD_eq_getElem?_getD, List.getElem?_concat_length]
  rfl

/-- Arena shape after inserting the static segments `done` from a
fresh root: a single chain, node `d` holding exactly the child
`(done[d], d+1)`, the tip bare. -/
def chainInv (done : List Str) (st : InsState) : Prop :=
  st.cur = done.length ∧
  st.nodes.length = done.length + 1 ∧
  st.paramKeys = [] ∧
  (∀ d (hd : d < done.length),
    (nodeAtL st.nodes d).children = [(done.get ⟨d, hd⟩, d + 1)]) ∧
  (nodeAtL st.nodes done.length).children = []

theorem insertStep_static_eq (st : InsState) (i : Nat) (s : Str)
    (hs : staticSeg s = true)
    (hlook : getChild st.nodes st.cur s = none) :
    insertStep false st (i, s) =
      { nodes := modifyNode
          ((modifyNode st.nodes st.cur (fun nd =>
            { nd with pathIndex := i + 1, paramCount := st.paramKeys.length })) ++
            [{ parent := some st.cur }]) st.cur
          (fun nd => { nd with children := nd.children ++ [(s, st.nodes.length)] }),
        cur := st.nodes.length,
        paramKeys := st.paramKeys,
        hasRootWildcard := st.hasRootWildcard } := by
  have hlook2 : getChild (modifyNode st.nodes st.cur (fun nd =>
      { nd with pathIndex := i + 1, paramCount := st.paramKeys.length })) st.cur s = none := by
    rw [getChild_modify_preserve]
    · exact hlook
    · intro nd
      rfl
  simp only [insertStep, classifyStep_static st (i, s) hs, descendStep]
  rw [if_neg Bool.false_ne_true, hlook2, modifyNode_length]

theorem chain_step (st : InsState) (done : List Str) (i : Nat) (s : Str)
    (hs : staticSeg s = true) (hinv : chainInv done st) :
    chainInv (done ++ [s]) (insertStep false st (i, s)) := by
  obtain ⟨hcur, hlen, hpk, hch, htop⟩ := hinv
  have hlook : getChild st.nodes st.cur s = none := by
    rw [getChild, hcur, htop]
    rfl
  rw [insertStep_static_eq st i s hs hlook, hcur]
  refine ⟨by simp [hlen], ?_, hpk, ?_, ?_⟩
  · dsimp only
    rw [modifyNode_length, List.length_append, modifyNode_length, hlen]
    simp
  · intro d hd
    dsimp only
    by_cases hdc : d = done.length
    · subst hdc
      rw [modifyNode, nodeAtL_set_self _ _ _ (by
          rw [List.length_append, modifyNode_length, hlen, List.length_singleton]
          omega)]
      show (nodeAtL _ done.length).children ++ [(s, st.nodes.length)] = _
      rw [nodeAtL_append_lt _ _ _ (by rw [modifyNode_length, hlen]; omega)]
      rw [children_modifyNode]
      · rw [htop, hlen]
        have hget : (done ++ [s]).get ⟨done.length, hd⟩ = s := by
          rw [List.get_append_right done [s] (Nat.le_refl _)]
          all_goals simp
        rw [hget]
        rfl
      · intro nd
        rfl
    · have hdlt : d < done.length := by
        have h2 := hd
        simp only [List.length_append, List.length_singleton] at h2
        omega
      rw [modifyNode, nodeAtL_set_other _ _ _ _ (by omega)]
      rw [nodeAtL_append_lt _ _ _ (by rw [modifyNode_length, hlen]; omega)]
      rw [children_modifyNode]
      · rw [hch d hdlt]
        have hget : (done ++ [s]).get ⟨d, hd⟩ = done.get ⟨d, hdlt⟩ :=
          List.get_append d hdlt
        rw [hget]
      · intro nd
        rfl
  · dsimp only
    rw [modifyNode, nodeAtL_set_other _ _ _ _ (by
        simp only [List.length_append, List.length_singleton]
        omega)]
    have hidx : (done ++ [s]).length = (modifyNode st.nodes done.length (fun nd =>
        { nd with pathIndex := i + 1, paramCount := st.paramKeys.length })).length := by
      rw [modifyNode_length, hlen]
      simp
    rw [hidx, nodeAtL_concat_length]

theorem chain_fold (l : List (Nat × Str)) :
    ∀ (done : List Str) (st : InsState),
      (∀ x ∈ l, staticSeg x.2 = true) → chainInv done st →
      chainInv (done ++ l.map Prod.snd) (List.foldl (insertStep false) st l) := by
  induction l with
  | nil =>
    intro done st _ h
    simpa using h
  | cons x l ih =>
    intro done st hall hinv
    rw [List.foldl_cons, List.map_cons]
    have h1 : chainInv (done ++ [x.2]) (insertStep false st x) := by
      have := chain_step st done x.1 x.2 (hall x (by simp)) hinv
      exact this
    have h2 := ih (done ++ [x.2]) (insertStep false st x)
      (fun y hy => hall y (by simp [hy])) h1
    rw [List.append_assoc] at h2
    simpa using h2

theorem chainInv_init : chainInv [] (⟨[{}], 0, [], false⟩ : InsState) := by
  refine ⟨rfl, rfl, rfl, ?_, ?_⟩
  · intro d hd
    simp at hd
  · rfl

theorem mem_of_getLast?_str (x : Str) (c : Char) (h : x.getLast? = some c) : c ∈ x := by
  rcases x with _ | ⟨a, l⟩
  · cases h
  · rw [List.getLast?_eq_getLast _ (by simp)] at h
    injection h with h2
    rw [← h2]
    exact List.getLast_mem _

theorem slowPathSplit_mkStaticPat (segs : List Str) (hne : segs ≠ [])
    (hs : ∀ s ∈ segs, staticSeg s = true) :
    slowPathSplit (mkStaticPat segs) = segs := by
  have hnonempty : ∀ x ∈ segs, x ≠ [] := fun x hx => (staticSeg_facts x (hs x hx)).1
  have hnosep : ∀ x ∈ segs, '/' ∉ x := fun x hx => (staticSeg_facts x (hs x hx)).2.2.2.2.2
  have hjoin_ne : joinSegs segs ≠ [] := by
    rcases segs with _ | ⟨s0, rest⟩
    · cases hne rfl
    · exact joinSegs_ne_nil s0 rest (hnonempty s0 (by simp))
  have hp_ne : mkStaticPat segs ≠ pathSep := by
    intro hcon
    unfold mkStaticPat at hcon
    rw [show pathSep = ['/'] from rfl] at hcon
    injection hcon with h1 h2
    exact hjoin_ne h2
  have hlast : ¬ ((mkStaticPat segs).getLast? = some pathSepB) := by
    intro hcon
    unfold mkStaticPat at hcon
    rw [show ('/' :: joinSegs segs) = ['/'] ++ joinSegs segs from rfl,
      List.getLast?_append, joinSegs_getLast? segs hne hnonempty] at hcon
    rcases ho : (segs.getLast hne).getLast? with _ | c
    · rw [ho] at hcon
      rw [List.getLast?_eq_none_iff] at ho
      exact hnonempty _ (List.getLast_mem hne) ho
    · rw [ho] at hcon
      have hc : c = pathSepB := by simpa using hcon
      subst hc
      exact hnosep _ (List.getLast_mem hne) (mem_of_getLast?_str _ _ ho)
  simp only [slowPathSplit]
  rw [if_neg hp_ne, if_neg hlast]
  simp only [mkStaticPat, splitSep, if_pos]
  rw [show (([] : Str) :: splitSep (joinSegs segs)).drop 1 = splitSep (joinSegs segs) by simp]
  exact splitSep_joinSegs segs hne hnosep

theorem mkStaticPat_ne_sep (segs : List Str) (hne : segs ≠ [])
    (hnonempty : ∀ s ∈ segs, s ≠ []) : mkStaticPat segs ≠ pathSep := by
  intro hcon
  unfold mkStaticPat at hcon
  rw [show pathSep = ['/'] from rfl] at hcon
  injection hcon with h1 h2
  rcases segs with _ | ⟨s0, rest⟩
  · exact hne rfl
  · exact joinSegs_ne_nil s0 rest (hnonempty s0 (by simp)) h2

theorem insert_static_chain (segs : List Str) (hne : segs ≠ [])
    (hs : ∀ s ∈ segs, staticSeg s = true) :
    ∃ t : GoTrie,
      fromPatterns false false [mkStaticPat segs] = some t ∧
      t.searchUnvisitedParams = false ∧
      t.caseInsensitive = false ∧
      t.nodes.length = segs.length + 1 ∧
      (∀ k (hk : k < segs.length),
        getChild t.nodes k (segs.get ⟨k, hk⟩) = some (k + 1)) ∧
      (nodeAt t segs.length).endB = true ∧
      (nodeAt t segs.length).key = mkStaticPat segs ∧
      (nodeAt t segs.length).paramKeys = [] := by
  have hnonempty : ∀ x ∈ segs, x ≠ [] := fun x hx => (staticSeg_facts x (hs x hx)).1
  have hsplit : slowPathSplit (mkStaticPat segs) = segs := slowPathSplit_mkStaticPat segs hne hs
  have hkey_ne : ¬ (mkStaticPat segs = []) := by unfold mkStaticPat; simp
  have hany : segs.any (fun s => s.isEmpty) = false := by
    rw [List.any_eq_false]
    intro x hx
    simpa using hnonempty x hx
  have henum : ∀ x ∈ segs.enum, staticSeg x.2 = true := by
    intro x hx
    apply hs
    rw [← List.enum_map_snd segs]
    exact List.mem_map_of_mem Prod.snd hx
  have hchain := chain_fold segs.enum [] ⟨[{}], 0, [], false⟩ henum chainInv_init
  rw [List.nil_append, List.enum_map_snd] at hchain
  obtain ⟨hcur, hlen, hpk, hch, htop⟩ := hchain
  have htot : ∃ t0, fromPatterns false false [mkStaticPat segs] = some t0 := by
    simp only [fromPatterns, insertAll, GoTrie.insert, newTrie]
    rw [if_neg hkey_ne, hsplit, hany, if_neg Bool.false_ne_true]
    exact ⟨_, rfl⟩
  obtain ⟨t, ht⟩ := htot
  have ht2 := ht
  simp only [fromPatterns, insertAll, GoTrie.insert, newTrie] at ht2
  rw [if_neg hkey_ne, hsplit, hany, if_neg Bool.false_ne_true] at ht2
  dsimp only at ht2
  obtain rfl := (Option.some.inj ht2).symm
  refine ⟨_, ht, rfl, rfl, ?_, ?_, ?_, ?_, ?_⟩
  · dsimp only
    rw [modifyNode_length]
    exact hlen
  · intro k hk
    dsimp only
    rw [getChild_modify_preserve]
    · rw [getChild, hch k hk]
      simp [List.lookup]
    · intro nd
      rfl
  · dsimp only [nodeAt]
    rw [← hcur, modifyNode, nodeAtL_set_self]
    omega
  · dsimp only [nodeAt]
    rw [← hcur, modifyNode, nodeAtL_set_self]
    omega
  · dsimp only [nodeAt]
    rw [← hcur, modifyNode, nodeAtL_set_self]
    · exact hpk
    · omega

theorem takeWhile_ne_sep_len (s : Str) (hs : '/' ∉ s) :
    ∀ r : Str, (r = [] ∨ ∃ r2, r = '/' :: r2) →
      ((s ++ r).takeWhile (fun c => c ≠ '/')).length = s.length := by
  induction s with
  | nil =>
    intro r hr
    rcases hr with rfl | ⟨r2, rfl⟩
    · rfl
    · simp [List.takeWhile_cons]
  | cons a s ih =>
    intro r hr
    have ha : a ≠ '/' := by
      intro h
      exact hs (by simp [h])
    have hs2 : '/' ∉ s := fun h => hs (by simp [h])
    simp only [List.cons_append, List.takeWhile_cons]
    rw [if_pos (by simpa using ha)]
    simp only [List.length_cons]
    rw [ih hs2 r hr]

theorem nextStop_eq (q s r : Str) (p : Nat) (hs : '/' ∉ s)
    (hq : q.drop p = s ++ r) (hr : r = [] ∨ ∃ r2, r = '/' :: r2) :
    nextStop q p = p + s.length := by
  rw [nextStop, hq, takeWhile_ne_sep_len s hs r hr]

theorem strSlice_seg (q s r : Str) (p : Nat) (hq : q.drop p = s ++ r) :
    strSlice q p (p + s.length) = s := by
  rw [strSlice, hq]
  simp

theorem drop_eq_len (q x : Str) (p : Nat) (hq : q.drop p = x) (hx : x ≠ []) :
    q.length = p + x.length := by
  have h1 : x.length = q.length - p := by rw [← hq, List.length_drop]
  have h2 : x.length ≠ 0 := by simpa using hx
  omega

theorem drop_chunk (q s r : Str) (p : Nat) (hq : q.drop p = s ++ '/' :: r) :
    q.drop (p + s.length + 1) = r := by
  have h0 : p + s.length + 1 = p + (s.length + 1) := by omega
  rw [h0, ← List.drop_drop, hq]
  rw [show s ++ '/' :: r = (s ++ ['/']) ++ r by simp]
  rw [show s.length + 1 = (s ++ ['/']).length by simp]
  exact List.drop_left _ _

theorem searchLoop_chain (t : GoTrie) (hsuv : t.searchUnvisitedParams = false) (q : Str) :
    ∀ (rest : List Str) (d p fuel : Nat) (pv : PVals) (visited : List Nat),
      rest ≠ [] →
      (∀ s ∈ rest, s ≠ [] ∧ '/' ∉ s) →
      (∀ k (hk : k < rest.length),
        getChild t.nodes (d + k) (rest.get ⟨k, hk⟩) = some (d + k + 1)) →
      q.drop p = joinSegs rest →
      rest.length ≤ fuel →
      searchLoop t q q fuel d p p pv visited = .broke (some (d + rest.length)) pv := by
  intro rest
  induction rest with
  | nil =>
    intro d p fuel pv visited hne
    cases hne rfl
  | cons s rest ih =>
    intro d p fuel pv visited hne hfacts hch hq hfuel
    obtain ⟨hsne, hsnosep⟩ := hfacts s (by simp)
    have hc : getChild t.nodes d s = some (d + 1) := by
      have h1 := hch 0 (by simp)
      simpa using h1
    rcases fuel with _ | fuel
    · exact absurd hfuel (by simp)
    cases rest with
    | nil =>
      have hq2 : q.drop p = s ++ [] := by simpa [joinSegs] using hq
      have hlen : q.length = p + s.length := by
        have := drop_eq_len q (s ++ []) p hq2 (by simpa using hsne)
        simpa using this
      have hstep : searchStep t q q d p p pv visited = .res (.broke (some (d + 1)) pv) := by
        simp only [searchStep]
        rw [nextStop_eq q s [] p hsnosep hq2 (Or.inl rfl),
          strSlice_seg q s [] p hq2, hc]
        dsimp only [stepDescend]
        rw [if_pos hlen.symm]
        simp [endCheck, hsuv]
      rw [searchLoop, hstep]
      rfl
    | cons s2 rest2 =>
      have hq2 : q.drop p = s ++ '/' :: joinSegs (s2 :: rest2) := by
        simpa [joinSegs] using hq
      have hlen := drop_eq_len q (s ++ '/' :: joinSegs (s2 :: rest2)) p hq2 (by simp)
      have hne_i : ¬ (p + s.length = q.length) := by
        simp only [List.length_append, List.length_cons] at hlen
        omega
      have hstep : searchStep t q q d p p pv visited =
          .next (d + 1) (p + s.length + 1) (p + s.length + 1) pv visited := by
        simp only [searchStep]
        rw [nextStop_eq q s ('/' :: joinSegs (s2 :: rest2)) p hsnosep hq2 (Or.inr ⟨_, rfl⟩),
          strSlice_seg q s ('/' :: joinSegs (s2 :: rest2)) p hq2, hc]
        dsimp only [stepDescend]
        rw [if_neg hne_i]
      have hch2 : ∀ k (hk : k < (s2 :: rest2).length),
          getChild t.nodes (d + 1 + k) ((s2 :: rest2).get ⟨k, hk⟩) = some (d + 1 + k + 1) := by
        intro k hk
        have h1 := hch (k + 1) (by simp only [List.length_cons] at hk ⊢; omega)
        rw [show d + (k + 1) = d + 1 + k by omega] at h1
        simpa using h1
      have hq3 : q.drop (p + s.length + 1) = joinSegs (s2 :: rest2) :=
        drop_chunk q s (joinSegs (s2 :: rest2)) p hq2
      have hres := ih (d + 1) (p + s.length + 1) fuel pv visited (by simp)
        (fun x hx => hfacts x (List.mem_cons_of_mem s hx)) hch2 hq3
        (by simp only [List.length_cons] at hfuel ⊢; omega)
      rw [searchLoop, hstep,
        show d + (s :: s2 :: rest2).length = d + 1 + (s2 :: rest2).length by
          simp only [List.length_cons]; omega]
      exact hres

/-- C8 (amended): for a purely static pattern `p` with a leading slash and
no trailing slash — `p = /s1/.../sk` with every `si` non-empty, free of
`:` and `*` heads, of the prefix and suffix parameter markers, and of
`/` — inserting `p` into a fresh default trie succeeds, and `Search(p)`
returns exactly the terminal node created for `p` (arena index `k`,
whose recorded `key` is `p`) with no `params.Set` calls emitted. -/
theorem claim8_static_roundtrip (segs : List Str) (hne : segs ≠ [])
    (hs : ∀ s ∈ segs, staticSeg s = true) :
    ∃ t : GoTrie,
      fromPatterns false false [mkStaticPat segs] = some t ∧
      search t (mkStaticPat segs) = .found segs.length [] ∧
      (nodeAt t segs.length).key = mkStaticPat segs := by
  obtain ⟨t, hft, hsuv, hci, hlen, hch, hend, hkey, hpk⟩ := insert_static_chain segs hne hs
  refine ⟨t, hft, ?_, hkey⟩
  have hnonempty : ∀ x ∈ segs, x ≠ [] := fun x hx => (staticSeg_facts x (hs x hx)).1
  have hfacts : ∀ x ∈ segs, x ≠ [] ∧ '/' ∉ x :=
    fun x hx => ⟨(staticSeg_facts x (hs x hx)).1, (staticSeg_facts x (hs x hx)).2.2.2.2.2⟩
  have hq_ne : ¬ ((mkStaticPat segs).length = 0 ∨ mkStaticPat segs = pathSep) := by
    rintro (h | h)
    · simp [mkStaticPat] at h
    · exact mkStaticPat_ne_sep segs hne hnonempty h
  have hch0 : ∀ k (hk : k < segs.length),
      getChild t.nodes (0 + k) (segs.get ⟨k, hk⟩) = some (0 + k + 1) := by
    intro k hk
    simpa using hch k hk
  have hdrop : (mkStaticPat segs).drop 1 = joinSegs segs := rfl
  have hfuel : segs.length ≤ (mkStaticPat segs).length + t.nodes.length + 2 := by
    rw [hlen]
    omega
  have hloop := searchLoop_chain t hsuv (mkStaticPat segs) segs 0 1
    ((mkStaticPat segs).length + t.nodes.length + 2) emptyPV [] hne hfacts hch0 hdrop hfuel
  rw [Nat.zero_add] at hloop
  simp only [search]
  rw [if_neg hq_ne, hci, if_neg Bool.false_ne_true, hloop]
  dsimp only
  simp only [searchTail]
  rw [if_pos hend, hpk]
  simp [emitParams, pvValues, emptyPV]

theorem claim8_static_roundtrip_witness :
    ([['a'], ['b']] : List Str) ≠ [] ∧
    (∀ s ∈ ([['a'], ['b']] : List Str), staticSeg s = true) ∧
    ∃ t : GoTrie,
      fromPatterns false false [mkStaticPat [['a'], ['b']]] = some t ∧
      search t (mkStaticPat [['a'], ['b']]) = .found ([['a'], ['b']] : List Str).length [] ∧
      (nodeAt t ([['a'], ['b']] : List Str).length).key = mkStaticPat [['a'], ['b']] :=
  ⟨by decide, by decide, claim8_static_roundtrip [['a'], ['b']] (by decide) (by decide)⟩
